import Mathlib

set_option autoImplicit false
set_option maxRecDepth 100000

/-!
Verification development for the DCKit audit/provenance core
(`src/dckit/main.py`).  The Python code is shallowly embedded:

* HDF5 attribute stores (`h5.attrs`) become association lists from the
  flattened `"section:key"` string to a scalar `Value`;
* Python scalar values become the inductive `Value`: plain strings,
  byte strings (which `write_metadata` decodes as UTF-8), and integers
  (numeric scalars round-trip exactly through HDF5, so they are modelled
  by `Int`);
* the filesystem becomes an association list from `Path` to `DiskFile`,
  and exceptions become `Except`;
* external collaborators (dclab conversion/compression/repack, hashing)
  are either implemented faithfully (SHA-256) or passed in as explicit
  outcome parameters.
-/

namespace DCKit

/-! ## Scalar values and attribute stores -/

/-- Scalar attribute value as stored in an HDF5 attribute: a text string,
a byte string (h5py returns `bytes` for strings written via
`numpy.string_`), or an integer. -/
inductive Value where
  | vStr (s : String)
  | vBytes (s : String)
  | vInt (n : Int)
deriving DecidableEq, Repr

/-- Decoding step of `write_metadata`: `if isinstance(v, bytes):
v = v.decode("utf-8")`.  Byte strings are decoded to text, everything
else is unchanged. -/
def normValue : Value → Value
  | .vBytes s => .vStr s
  | v => v

/-- Storage conversion of `write_metadata`: `if isinstance(value, str):
value = numpy.string_(value.encode("utf-8"))`.  Text is written back as a
byte string, everything else is written unchanged. -/
def storeValue : Value → Value
  | .vStr s => .vBytes s
  | v => v

/-- Attribute store of an HDF5 file: keys are the flattened
`"section:key"` strings. -/
abbrev AttrMap := List (String × Value)

/-- Lookup in an attribute store (`h5.attrs.get(h5key, None)`). -/
def attrGet : AttrMap → String → Option Value
  | [], _ => none
  | (k, v) :: r, key => if k = key then some v else attrGet r key

/-- Update of an attribute store (`h5.attrs[h5key] = value`). -/
def attrSet : AttrMap → String → Value → AttrMap
  | [], key, v => [(key, v)]
  | (k, w) :: r, key, v =>
      if k = key then (key, v) :: r else (k, w) :: attrSet r key v

/-- Lookup followed by the byte-string decoding that `write_metadata`
performs on the stored value. -/
def attrGetNorm (attrs : AttrMap) (key : String) : Option Value :=
  Option.map normValue (attrGet attrs key)

/-! ## The metadata patch engine (`DCKit.write_metadata`) -/

/-- Task record of one mutating operation, as assembled in
`write_metadata` (`task_dict`): a task name, the mapping of changed keys
to their previous values (`None`, i.e. `none`, for keys that were
absent), and the mapping of changed keys to their new values. -/
structure TaskRecord where
  name : String
  old : List (String × Option Value)
  new : List (String × Value)
deriving DecidableEq, Repr

/-- Proposed metadata: the nested dict `{section: {key: value}}`
flattened in iteration order into `(section, key, value)` triples. -/
abbrev Metadata := List (String × String × Value)

/-- Flattened attribute key: `"{}:{}".format(sec, key)`. -/
def h5keyOf (sec key : String) : String := sec ++ ":" ++ key

/-- Key of one flattened metadata entry. -/
def entKey (ent : String × String × Value) : String := h5keyOf ent.1 ent.2.1

/-- Body of the loop of `write_metadata` for a single `(sec, key)`:
read the stored value, decode byte strings on both sides, and if the
proposed value differs record it in the task record and write it to the
attribute store. -/
def writeMetadataStep (acc : AttrMap × TaskRecord) (ent : String × String × Value) :
    AttrMap × TaskRecord :=
  let attrs := acc.1
  let task := acc.2
  let h5key := entKey ent
  let value_old := attrGetNorm attrs h5key
  let value := normValue ent.2.2
  if value_old = some value then acc
  else
    (attrSet attrs h5key (storeValue value),
     { task with
        old := task.old ++ [(h5key, value_old)],
        new := task.new ++ [(h5key, value)] })

/-- Initial (empty) task record of `write_metadata`. -/
def emptyTask : TaskRecord := { name := "update metadata", old := [], new := [] }

/-- Embedding of `DCKit.write_metadata`: scan all proposed entries,
stage every changed key, and return the updated attribute store together
with the task record, or `none` for the record if nothing changed. -/
def write_metadata (attrs : AttrMap) (md : Metadata) : AttrMap × Option TaskRecord :=
  let r := md.foldl writeMetadataStep (attrs, emptyTask)
  (r.1, if r.2.new.isEmpty then none else some r.2)

/-! ### Characterization of the fold -/

/-- Attribute store after the loop of `write_metadata`, defined by
direct recursion (proved equal to the fold below). -/
def attrsAfter : AttrMap → Metadata → AttrMap
  | attrs, [] => attrs
  | attrs, ent :: rest =>
      let k := entKey ent
      let v := normValue ent.2.2
      if attrGetNorm attrs k = some v then attrsAfter attrs rest
      else attrsAfter (attrSet attrs k (storeValue v)) rest

/-- List of `(key, old value, new value)` triples staged by the loop of
`write_metadata`, in loop order. -/
def diffTriples : AttrMap → Metadata → List (String × Option Value × Value)
  | _, [] => []
  | attrs, ent :: rest =>
      let k := entKey ent
      let vOld := attrGetNorm attrs k
      let v := normValue ent.2.2
      if vOld = some v then diffTriples attrs rest
      else (k, vOld, v) :: diffTriples (attrSet attrs k (storeValue v)) rest

/-! ## History entries (`append_execution_log`) -/

/-- Tool identity info merged into every history entry (`get_job_info()`
from dclab; the version values are opaque to the core). -/
def get_job_info : List (String × String) :=
  [("dclab", "0.22.1"), ("h5py", "2.10.0"), ("numpy", "1.17.0")]

/-- Version of the shapeout library (tool identity provider). -/
def shapeoutVersion : String := "0.9.6"

/-- Version of DCKit itself (tool identity provider). -/
def dckitVersion : String := "0.5.0"

/-- History entry: tool-chain info plus the task record. -/
structure HistoryEntry where
  libraries : List (String × String)
  task : TaskRecord
deriving DecidableEq, Repr

/-- State of an RT-DC container file: attribute store, ordered history
log, and named log streams. -/
structure ContainerState where
  attrs : AttrMap
  history : List HistoryEntry
  logs : List (String × List String)
deriving DecidableEq, Repr

/-- Modelled from the spec: the `history` module
(`history.append_history`) is not under `src/`; section 4.1 of the spec
specifies `append(container, entry)` as appending the entry to the
container's history log without disturbing any other content. -/
def append_history (c : ContainerState) (e : HistoryEntry) : ContainerState :=
  { c with history := c.history ++ [e] }

/-- Embedding of `append_execution_log`: merge the tool identity info
(shapeout and dckit versions added to `get_job_info()`) with the task
record and append the result to the container's history. -/
def append_execution_log (c : ContainerState) (task : TaskRecord) : ContainerState :=
  append_history c
    { libraries := get_job_info ++
        [("shapeout", shapeoutVersion), ("dckit", dckitVersion)],
      task := task }

/-- Per-container body of `on_task_metadata` for a non-tdms file: apply
`write_metadata` and, if anything changed, append the returned task
record to the history. -/
def updateMetadataRtdc (c : ContainerState) (md : Metadata) : ContainerState :=
  let r := write_metadata c.attrs md
  match r.2 with
  | some task => append_execution_log { c with attrs := r.1 } task
  | none => { c with attrs := r.1 }

/-! ## Paths -/

/-- Filesystem path: a directory and a file name (the model only ever
derives sibling paths, so one directory component suffices). -/
structure Path where
  dir : String
  name : String
deriving DecidableEq, Repr

/-- Full textual form of a path (used in report strings). -/
def Path.full (p : Path) : String := p.dir ++ "/" ++ p.name

/-- Embedding of `pathlib.Path.with_name`: same directory, new name. -/
def Path.with_name (p : Path) (n : String) : Path := { p with name := n }

/-- Embedding of `pathlib.Path.suffix`: the final `".ext"` component of
the name, or `""` when the name has no dot (or only a leading dot). -/
def pathSuffix (p : Path) : String :=
  let rev := p.name.data.reverse
  let ext := rev.takeWhile (fun c => c ≠ '.')
  match rev.drop ext.length with
  | '.' :: rest => if rest.isEmpty then "" else String.mk ('.' :: ext.reverse)
  | _ => ""

/-- Embedding of `pathlib.Path.stem`: the name without its final
suffix. -/
def pathStem (p : Path) : String :=
  let rev := p.name.data.reverse
  let ext := rev.takeWhile (fun c => c ≠ '.')
  match rev.drop ext.length with
  | '.' :: rest => if rest.isEmpty then p.name else String.mk rest.reverse
  | _ => p.name

/-! ## The metadata batch (`DCKit.on_task_metadata`) and claim C6 -/

/-- One table row presented to `on_task_metadata`: the dataset path, the
current state of its container, and the proposed metadata for it. -/
structure MetaRow where
  path : Path
  container : ContainerState
  metadata : Metadata
deriving Repr

/-- Result of the metadata batch: the per-file container states (in row
order), the paths reported as unsupported, and the success details. -/
structure MetaResult where
  rows : List (Path × ContainerState)
  invalid : List Path
  details : List String
deriving DecidableEq, Repr

/-- Informative text of the unsupported-format dialog shown for `.tdms`
files, directing the caller to convert them first. -/
def metadataUnsupportedMessage : String :=
  "Changing the metadata for .tdms files is " ++
  "not supported! Please convert the files to " ++
  "the .rtdc file format."

/-- Loop body of `on_task_metadata`: `.tdms` paths are collected as
invalid without touching the file; every other path gets the attribute
patch, and a history entry plus a detail line when something changed. -/
def on_task_metadata_step (acc : MetaResult) (row : MetaRow) : MetaResult :=
  if pathSuffix row.path = ".tdms" then
    { acc with rows := acc.rows ++ [(row.path, row.container)],
               invalid := acc.invalid ++ [row.path] }
  else
    let r := write_metadata row.container.attrs row.metadata
    match r.2 with
    | some task =>
        { acc with
            rows := acc.rows ++
              [(row.path, append_execution_log { row.container with attrs := r.1 } task)],
            details := acc.details ++ [row.path.full ++ ": update metadata"] }
    | none =>
        { acc with rows := acc.rows ++ [(row.path, { row.container with attrs := r.1 })] }

/-- Embedding of `DCKit.on_task_metadata`: process every row, then show
the unsupported-format dialog exactly when some `.tdms` file was
encountered. -/
def on_task_metadata (rows : List MetaRow) : MetaResult × Option String :=
  let res := rows.foldl on_task_metadata_step { rows := [], invalid := [], details := [] }
  (res, if res.invalid.isEmpty then none else some metadataUnsupportedMessage)

/-! ## Filesystem model and the safe repack/replace (`DCKit.repack`) -/

/-- Content of one file on disk: an RT-DC container, an extracted text
log, or a partially written file left behind by an interrupted
operation. -/
inductive DiskFile where
  | container (c : ContainerState)
  | textLog (lines : List String)
  | truncatedFile
deriving DecidableEq, Repr

/-- Filesystem: a finite map from paths to file contents. -/
abbrev FS := List (Path × DiskFile)

/-- Lookup a file (`path.exists()` / reading the file). -/
def fsGet : FS → Path → Option DiskFile
  | [], _ => none
  | (q, f) :: r, p => if q = p then some f else fsGet r p

/-- Create or overwrite a file. -/
def fsSet : FS → Path → DiskFile → FS
  | [], p, f => [(p, f)]
  | (q, g) :: r, p, f => if q = p then (p, f) :: r else (q, g) :: fsSet r p f

/-- Delete a file (`path.unlink()`). -/
def fsErase : FS → Path → FS
  | [], _ => []
  | (q, f) :: r, p => if q = p then fsErase r p else (q, f) :: fsErase r p

/-- Observable filesystem operation performed by the repack/replace
protocol, recorded in order. -/
inductive FsEvent where
  | unlink (p : Path)
  | rename (src dst : Path)
deriving DecidableEq, Repr

/-- Sibling temporary path of the repack:
`path.with_name("." + path.name + "_repack.temp")`. -/
def repackTempPath (p : Path) : Path :=
  p.with_name ("." ++ p.name ++ "_repack.temp")

/-- Embedding of `DCKit.repack`: when the checkbox is unchecked this is
a no-op; otherwise invoke the external repack function (dclab's
`repack(path, path_temp, strip_logs=True)`, passed in as `repackFn`),
and on success delete the original and rename the temporary file onto
it, while on failure delete the temporary file if it exists and
re-raise. The returned event list records the destructive operations in
order. -/
def repack (repackChecked : Bool) (repackFn : FS → Except (String × FS) FS)
    (path : Path) (fs : FS) :
    Except (String × FS × List FsEvent) (FS × List FsEvent) :=
  if !repackChecked then Except.ok (fs, [])
  else
    let path_temp := repackTempPath path
    match repackFn fs with
    | Except.error (exc, fs₁) =>
        if (fsGet fs₁ path_temp).isSome then
          Except.error (exc, fsErase fs₁ path_temp, [FsEvent.unlink path_temp])
        else
          Except.error (exc, fs₁, [])
    | Except.ok fs₁ =>
        let fs₂ := fsErase fs₁ path
        match fsGet fs₂ path_temp with
        | some f =>
            Except.ok (fsSet (fsErase fs₂ path_temp) path f,
                       [FsEvent.unlink path, FsEvent.rename path_temp path])
        | none =>
            Except.error ("FileNotFoundError", fs₂, [FsEvent.unlink path])

/-! ## SHA-256 (the content hash behind `sha256(path)`) -/

/-- Modulus of 32-bit words. -/
def M32 : Nat := 4294967296

/-- Right rotation of a 32-bit word by `n` bits. -/
def rotr32 (n x : Nat) : Nat := (x / 2 ^ n + (x % 2 ^ n) * 2 ^ (32 - n)) % M32

/-- SHA-256 round constants (FIPS 180-4, written in decimal). -/
def shaK : List Nat :=
  [1116352408, 1899447441, 3049323471, 3921009573,
   961987163, 1508970993, 2453635748, 2870763221,
   3624381080, 310598401, 607225278, 1426881987,
   1925078388, 2162078206, 2614888103, 3248222580,
   3835390401, 4022224774, 264347078, 604807628,
   770255983, 1249150122, 1555081692, 1996064986,
   2554220882, 2821834349, 2952996808, 3210313671,
   3336571891, 3584528711, 113926993, 338241895,
   666307205, 773529912, 1294757372, 1396182291,
   1695183700, 1986661051, 2177026350, 2456956037,
   2730485921, 2820302411, 3259730800, 3345764771,
   3516065817, 3600352804, 4094571909, 275423344,
   430227734, 506948616, 659060556, 883997877,
   958139571, 1322822218, 1537002063, 1747873779,
   1955562222, 2024104815, 2227730452, 2361852424,
   2428436474, 2756734187, 3204031479, 3329325298]

/-- Hash state: the eight 32-bit working variables of SHA-256. -/
structure ShaState where
  a : Nat
  b : Nat
  c : Nat
  d : Nat
  e : Nat
  f : Nat
  g : Nat
  hh : Nat
deriving DecidableEq, Repr

/-- SHA-256 initial hash value (FIPS 180-4, written in decimal). -/
def shaH0 : ShaState :=
  { a := 1779033703, b := 3144134277, c := 1013904242, d := 2773480762,
    e := 1359893119, f := 2600822924, g := 528734635, hh := 1541459225 }

/-- Big-endian byte representation of `n` on `k` bytes. -/
def toBytesBE : Nat → Nat → List Nat
  | 0, _ => []
  | k + 1, n => toBytesBE k (n / 256) ++ [n % 256]

/-- SHA-256 message padding: append `0x80`, zero bytes up to 56 mod 64,
and the bit length on 8 big-endian bytes. -/
def padMessage (msg : List Nat) : List Nat :=
  let padlen := (56 + 64 - (msg.length + 1) % 64) % 64
  msg ++ [128] ++ List.replicate padlen 0 ++ toBytesBE 8 (msg.length * 8)

/-- Big-endian 32-bit words of a byte list. -/
def bytesToWordsBE : List Nat → List Nat
  | b0 :: b1 :: b2 :: b3 :: rest =>
      (((b0 * 256 + b1) * 256 + b2) * 256 + b3) :: bytesToWordsBE rest
  | _ => []

/-- Split a list into chunks of 64 (fuel-based so kernel reduction
works; the fuel `l.length` always suffices). -/
def chunksFuel : Nat → List Nat → List (List Nat)
  | 0, _ => []
  | _, [] => []
  | fuel + 1, x :: rest => ((x :: rest).take 64) :: chunksFuel fuel ((x :: rest).drop 64)

/-- The 64-byte blocks of a (padded) message. -/
def chunks64 (l : List Nat) : List (List Nat) := chunksFuel l.length l

/-- Message-schedule extension: append the next scheduled word `k`
times. -/
def extendSchedule (w : List Nat) : Nat → List Nat
  | 0 => w
  | k + 1 =>
      let i := w.length
      let w15 := w.getD (i - 15) 0
      let w2 := w.getD (i - 2) 0
      let w16 := w.getD (i - 16) 0
      let w7 := w.getD (i - 7) 0
      let s0 := (rotr32 7 w15) ^^^ (rotr32 18 w15) ^^^ (w15 / 2 ^ 3)
      let s1 := (rotr32 17 w2) ^^^ (rotr32 19 w2) ^^^ (w2 / 2 ^ 10)
      extendSchedule (w ++ [(w16 + s0 + w7 + s1) % M32]) k

/-- One SHA-256 compression round for the scheduled word `wk.1` and
round constant `wk.2`. -/
def shaCompressRound (st : ShaState) (wk : Nat × Nat) : ShaState :=
  let s1 := (rotr32 6 st.e) ^^^ (rotr32 11 st.e) ^^^ (rotr32 25 st.e)
  let ch := (st.e &&& st.f) ^^^ ((4294967295 - st.e) &&& st.g)
  let temp1 := (st.hh + s1 + ch + wk.2 + wk.1) % M32
  let s0 := (rotr32 2 st.a) ^^^ (rotr32 13 st.a) ^^^ (rotr32 22 st.a)
  let maj := (st.a &&& st.b) ^^^ (st.a &&& st.c) ^^^ (st.b &&& st.c)
  let temp2 := (s0 + maj) % M32
  { a := (temp1 + temp2) % M32, b := st.a, c := st.b, d := st.c,
    e := (st.d + temp1) % M32, f := st.e, g := st.f, hh := st.g }

/-- Process one 64-byte block. -/
def shaProcessBlock (h : ShaState) (block : List Nat) : ShaState :=
  let w := extendSchedule (bytesToWordsBE block) 48
  let st := (w.zip shaK).foldl shaCompressRound h
  { a := (h.a + st.a) % M32, b := (h.b + st.b) % M32,
    c := (h.c + st.c) % M32, d := (h.d + st.d) % M32,
    e := (h.e + st.e) % M32, f := (h.f + st.f) % M32,
    g := (h.g + st.g) % M32, hh := (h.hh + st.hh) % M32 }

/-- SHA-256 of a byte list. -/
def sha256 (msg : List Nat) : ShaState :=
  (chunks64 (padMessage msg)).foldl shaProcessBlock shaH0

/-- Lower-case hex digit. -/
def hexDigitChar (n : Nat) : Char :=
  if n < 10 then Char.ofNat (48 + n) else Char.ofNat (87 + n)

/-- Eight hex characters of one 32-bit word. -/
def wordHexChars (w : Nat) : List Char :=
  [hexDigitChar (w / 2 ^ 28 % 16), hexDigitChar (w / 2 ^ 24 % 16),
   hexDigitChar (w / 2 ^ 20 % 16), hexDigitChar (w / 2 ^ 16 % 16),
   hexDigitChar (w / 2 ^ 12 % 16), hexDigitChar (w / 2 ^ 8 % 16),
   hexDigitChar (w / 2 ^ 4 % 16), hexDigitChar (w % 16)]

/-- Hex digest of SHA-256 as a character list (64 characters). -/
def sha256hexChars (msg : List Nat) : List Char :=
  let st := sha256 msg
  wordHexChars st.a ++ wordHexChars st.b ++ wordHexChars st.c ++
  wordHexChars st.d ++ wordHexChars st.e ++ wordHexChars st.f ++
  wordHexChars st.g ++ wordHexChars st.hh

/-- Embedding of `sha256(path)`: hex digest of the file content. -/
def sha256hex (msg : List Nat) : String := String.mk (sha256hexChars msg)

/-! ## The deterministic output namer (`get_rtdc_output_name`) -/

/-- UTF-8 encoding of one code point (`str.encode("utf-8")`). -/
def utf8Bytes (c : Char) : List Nat :=
  let n := c.toNat
  if n < 128 then [n]
  else if n < 2048 then [192 + n / 64, 128 + n % 64]
  else if n < 65536 then
    [224 + n / 4096, 128 + (n / 64) % 64, 128 + n % 64]
  else
    [240 + n / 262144, 128 + (n / 4096) % 64, 128 + (n / 64) % 64, 128 + n % 64]

/-- Embedding of the sample-name sanitization inside
`get_rtdc_output_name`: `sample_name.replace(" ", "_").encode("utf-8")
.decode("ascii", errors="replace").replace("�", "?")`.  The
`"replace"` error handler of `bytes.decode` substitutes one U+FFFD for
every individual byte outside ASCII, and each U+FFFD is then replaced
by `"?"`. -/
def sanitizeSampleName (s : String) : String :=
  let underscored := s.data.map (fun c => if c = ' ' then '_' else c)
  let bytes := (underscored.map utf8Bytes).flatten
  let decoded := bytes.map (fun b => if b < 128 then Char.ofNat b else Char.ofNat 65533)
  String.mk (decoded.map (fun c => if c = Char.ofNat 65533 then '?' else c))

/-- Name composition of `get_rtdc_output_name`:
`"{}_M{}_{}_{}.rtdc".format(date, run_index, sanitized_sample, hash8)`. -/
def composeOutputName (date : String) (runIndex : Nat) (sample : String)
    (hash8 : String) : String :=
  date ++ "_M" ++ toString runIndex ++ "_" ++ sanitizeSampleName sample ++
  "_" ++ hash8 ++ ".rtdc"

/-- Origin dataset as seen by the output namer. Modelled from the spec:
the `meta_tool` module (`get_date`, `get_run_index`) is not under
`src/`; section 4.3 of the spec specifies them as pure lookups of the
acquisition date and the run index of the source container, and the
hash as SHA-256 of the full byte content of the source file. -/
structure OriginFile where
  date : String
  runIndex : Nat
  content : List Nat
deriving DecidableEq, Repr

/-- Embedding of `get_rtdc_output_name`: compose the acquisition date,
run index, sanitized sample name and the first 8 hex characters of the
SHA-256 content hash. -/
def get_rtdc_output_name (origin : OriginFile) (sample_name : String) : String :=
  composeOutputName origin.date origin.runIndex sample_name
    (String.mk ((sha256hexChars origin.content).take 8))

/-! ## Batch conversion (`on_task_tdms2rtdc`) and compression
     (`on_task_compress`) -/

/-- Whether the character list `t` occurs at the start of the second
list. -/
def matchStart : List Char → List Char → Bool
  | [], _ => true
  | _ :: _, [] => false
  | a :: as, b :: bs => a == b && matchStart as bs

/-- Whether `t` occurs as a contiguous sublist. -/
def containsSub (t : List Char) : List Char → Bool
  | [] => t.isEmpty
  | c :: rest => matchStart t (c :: rest) || containsSub t rest

/-- Embedding of Python `s.count(sub)` used as a truth value
(`lname.count("warnings")`). -/
def strContainsB (s sub : String) : Bool := containsSub sub.data s.data

/-- Write one log stream to a sibling `.log` file if its name mentions
"warnings". -/
def writeLogStep (p : Path) (acc : FS) (l : String × List String) : FS :=
  if strContainsB l.1 "warnings" then
    fsSet acc (p.with_name (pathStem p ++ "_" ++ l.1 ++ ".log"))
      (DiskFile.textLog l.2)
  else acc

/-- Embedding of `extract_warning_logs`: write every log stream of the
container whose name contains "warnings" to a sibling text file
`stem_logname.log`. -/
def extract_warning_logs (fs : FS) (p : Path) (c : ContainerState) : FS :=
  c.logs.foldl (writeLogStep p) fs

/-- Outcome of the external dclab conversion/compression call on one
input file: the produced container, or an exception (with a flag for
whether a partially written output file was left on disk). -/
inductive ConvOutcome where
  | ok (result : ContainerState)
  | fail (leftover : Bool) (err : String)
deriving DecidableEq, Repr

/-- One table row presented to a batch operation: the input path, the
origin facts the namer needs, the row metadata with its sample name,
and the external call's outcome for this file. -/
structure BatchInput where
  path : Path
  origin : OriginFile
  metadata : Metadata
  sample : String
  outcome : ConvOutcome
deriving DecidableEq, Repr

/-- Mutable state of a batch run: the output directory contents and the
report lists (`details`, `errors`, `invalid`, `paths_converted`). -/
structure BatchState where
  outputs : FS
  details : List String
  errors : List (Path × String)
  invalid : List Path
  converted : List Path
deriving DecidableEq, Repr

/-- Batch state at the start of a run. -/
def emptyBatchState : BatchState :=
  { outputs := [], details := [], errors := [], invalid := [], converted := [] }

/-- Derived output path `pout / get_rtdc_output_name(path, sample)`. -/
def outPath (pout : String) (inp : BatchInput) : Path :=
  { dir := pout, name := get_rtdc_output_name inp.origin inp.sample }

/-- Success pipeline shared by conversion and compression: append the
operation's history entry, apply the metadata patch (with its own
history entry when something changed), materialize the container at the
derived output path, extract warning logs, and record the detail line
and output path. -/
def processConverted (taskName : String) (pout : String) (st : BatchState)
    (inp : BatchInput) (c₀ : ContainerState) : BatchState :=
  let prtdc := outPath pout inp
  let c₁ := append_execution_log c₀ { name := taskName, old := [], new := [] }
  let c₂ := updateMetadataRtdc c₁ inp.metadata
  let fs₁ := fsSet st.outputs prtdc (DiskFile.container c₂)
  let fs₂ := extract_warning_logs fs₁ prtdc c₂
  { st with outputs := fs₂,
            details := st.details ++ [inp.path.full ++ " -> " ++ prtdc.full],
            converted := st.converted ++ [prtdc] }

/-- Loop body of `on_task_tdms2rtdc`: non-`.tdms` files are collected
as invalid; a failing conversion is caught, recorded in `errors`, and
its partial output deleted; a successful conversion runs the shared
pipeline and then the optional repack (whose exception, unlike the
conversion's, is not caught). -/
def tdms2rtdcStep (repackChecked : Bool) (repackFn : FS → Except (String × FS) FS)
    (pout : String) (st : BatchState) (inp : BatchInput) :
    Except (String × BatchState) BatchState :=
  let prtdc := outPath pout inp
  if pathSuffix inp.path = ".tdms" then
    match inp.outcome with
    | ConvOutcome.fail leftover err =>
        let fs₁ := if leftover then fsSet st.outputs prtdc DiskFile.truncatedFile
                   else st.outputs
        let fs₂ := if (fsGet fs₁ prtdc).isSome then fsErase fs₁ prtdc else fs₁
        Except.ok { st with outputs := fs₂, errors := st.errors ++ [(inp.path, err)] }
    | ConvOutcome.ok c₀ =>
        let st₁ := processConverted "convert .tdms to .rtdc" pout st inp c₀
        match repack repackChecked repackFn prtdc st₁.outputs with
        | Except.ok (fs', _) => Except.ok { st₁ with outputs := fs' }
        | Except.error (exc, fs', _) => Except.error (exc, { st₁ with outputs := fs' })
  else
    Except.ok { st with invalid := st.invalid ++ [inp.path] }

/-- Loop body of `on_task_compress`: non-`.rtdc` files are collected as
invalid; there is no try/except around the per-file work, so a failing
compression raises out of the loop and aborts the batch. -/
def compressStep (repackChecked : Bool) (repackFn : FS → Except (String × FS) FS)
    (pout : String) (st : BatchState) (inp : BatchInput) :
    Except (String × BatchState) BatchState :=
  let prtdc := outPath pout inp
  if pathSuffix inp.path = ".rtdc" then
    match inp.outcome with
    | ConvOutcome.fail leftover err =>
        Except.error (err,
          { st with outputs := if leftover then fsSet st.outputs prtdc DiskFile.truncatedFile
                               else st.outputs })
    | ConvOutcome.ok c₀ =>
        let st₁ := processConverted "compress HDF5 data" pout st inp c₀
        match repack repackChecked repackFn prtdc st₁.outputs with
        | Except.ok (fs', _) => Except.ok { st₁ with outputs := fs' }
        | Except.error (exc, fs', _) => Except.error (exc, { st₁ with outputs := fs' })
  else
    Except.ok { st with invalid := st.invalid ++ [inp.path] }

/-- Run a per-file step over the batch; an uncaught exception in the
step aborts the remaining files. -/
def foldBatch (f : BatchState → BatchInput → Except (String × BatchState) BatchState) :
    BatchState → List BatchInput → Except (String × BatchState) BatchState
  | st, [] => Except.ok st
  | st, inp :: rest =>
      match f st inp with
      | Except.ok st' => foldBatch f st' rest
      | Except.error e => Except.error e

/-- Embedding of `DCKit.on_task_tdms2rtdc`. -/
def on_task_tdms2rtdc (repackChecked : Bool)
    (repackFn : FS → Except (String × FS) FS) (pout : String)
    (inputs : List BatchInput) : Except (String × BatchState) BatchState :=
  foldBatch (tdms2rtdcStep repackChecked repackFn pout) emptyBatchState inputs

/-- Embedding of `DCKit.on_task_compress`. -/
def on_task_compress (repackChecked : Bool)
    (repackFn : FS → Except (String × FS) FS) (pout : String)
    (inputs : List BatchInput) : Except (String × BatchState) BatchState :=
  foldBatch (compressStep repackChecked repackFn pout) emptyBatchState inputs

/-- Exception text of an aborted batch, if it aborted. -/
def batchAbortErr : Except (String × BatchState) BatchState → Option String
  | Except.error (e, _) => some e
  | Except.ok _ => none

/-- Detail lines accumulated when the batch aborted. -/
def batchAbortDetails : Except (String × BatchState) BatchState → Option (List String)
  | Except.error (_, st) => some st.details
  | Except.ok _ => none

/-- Per-file error reports accumulated when the batch aborted. -/
def batchAbortErrors :
    Except (String × BatchState) BatchState → Option (List (Path × String))
  | Except.error (_, st) => some st.errors
  | Except.ok _ => none

/-! ### Per-input report contributions of the conversion batch -/

/-- Error entries contributed by one input of the conversion batch. -/
def stepErrors (inp : BatchInput) : List (Path × String) :=
  if pathSuffix inp.path = ".tdms" then
    match inp.outcome with
    | ConvOutcome.fail _ err => [(inp.path, err)]
    | ConvOutcome.ok _ => []
  else []

/-- Detail lines contributed by one input of the conversion batch. -/
def stepDetails (pout : String) (inp : BatchInput) : List String :=
  if pathSuffix inp.path = ".tdms" then
    match inp.outcome with
    | ConvOutcome.fail _ _ => []
    | ConvOutcome.ok _ => [inp.path.full ++ " -> " ++ (outPath pout inp).full]
  else []

/-! ## Theorems -/

theorem writeMetadataFold_spec (md : Metadata) :
    ∀ (attrs : AttrMap) (task : TaskRecord),
      md.foldl writeMetadataStep (attrs, task) =
        (attrsAfter attrs md,
         { task with
            old := task.old ++ (diffTriples attrs md).map (fun d => (d.1, d.2.1)),
            new := task.new ++ (diffTriples attrs md).map (fun d => (d.1, d.2.2)) }) := by
  induction md with
  | nil => intro attrs task; simp [attrsAfter, diffTriples]
  | cons ent rest ih =>
      intro attrs task
      simp only [List.foldl_cons, writeMetadataStep, attrsAfter, diffTriples]
      by_cases h : attrGetNorm attrs (entKey ent) = some (normValue ent.2.2)
      · simp [h, ih]
      · simp only [if_neg h, ih]
        simp [List.append_assoc]

theorem attrGet_attrSet_self (attrs : AttrMap) (k : String) (v : Value) :
    attrGet (attrSet attrs k v) k = some v := by
  induction attrs with
  | nil => simp [attrSet, attrGet]
  | cons p r ih =>
      obtain ⟨pk, pv⟩ := p
      by_cases h : pk = k
      · simp [attrSet, attrGet, h]
      · simp [attrSet, attrGet, h, ih]

theorem attrGet_attrSet_ne (attrs : AttrMap) (k k' : String) (v : Value)
    (h : k' ≠ k) : attrGet (attrSet attrs k v) k' = attrGet attrs k' := by
  have h1 : ¬ k = k' := fun hh => h hh.symm
  induction attrs with
  | nil => simp only [attrSet, attrGet, if_neg h1]
  | cons p r ih =>
      obtain ⟨pk, pv⟩ := p
      by_cases hp : pk = k
      · have h2 : ¬ pk = k' := by rw [hp]; exact h1
        simp only [attrSet, if_pos hp, attrGet, if_neg h1, if_neg h2]
      · by_cases hp' : pk = k'
        · simp only [attrSet, if_neg hp, attrGet, if_pos hp']
        · simp only [attrSet, if_neg hp, attrGet, if_neg hp', ih]

theorem normValue_storeValue (v : Value) :
    normValue (storeValue (normValue v)) = normValue v := by
  cases v <;> rfl

theorem attrsAfter_not_mem (md : Metadata) :
    ∀ (attrs : AttrMap) (k : String), k ∉ md.map entKey →
      attrGet (attrsAfter attrs md) k = attrGet attrs k := by
  induction md with
  | nil => intro attrs k _; rfl
  | cons ent rest ih =>
      intro attrs k hk
      simp only [List.map_cons, List.mem_cons, not_or] at hk
      simp only [attrsAfter]
      by_cases h : attrGetNorm attrs (entKey ent) = some (normValue ent.2.2)
      · rw [if_pos h, ih attrs k hk.2]
      · rw [if_neg h, ih _ k hk.2, attrGet_attrSet_ne _ _ _ _ hk.1]

theorem attrsAfter_mem (md : Metadata) :
    ∀ attrs : AttrMap, (md.map entKey).Nodup →
      ∀ ent ∈ md, attrGetNorm (attrsAfter attrs md) (entKey ent) =
        some (normValue ent.2.2) := by
  induction md with
  | nil => intro _ _ ent h; cases h
  | cons e rest ih =>
      intro attrs hnd ent hent
      have hnd' : (rest.map entKey).Nodup := (List.nodup_cons.mp hnd).2
      have hknot : entKey e ∉ rest.map entKey := (List.nodup_cons.mp hnd).1
      rcases List.mem_cons.mp hent with he | hr
      · subst he
        simp only [attrsAfter]
        by_cases h : attrGetNorm attrs (entKey ent) = some (normValue ent.2.2)
        · rw [if_pos h]
          unfold attrGetNorm
          rw [attrsAfter_not_mem rest attrs (entKey ent) hknot]
          exact h
        · rw [if_neg h]
          unfold attrGetNorm
          rw [attrsAfter_not_mem rest _ (entKey ent) hknot,
              attrGet_attrSet_self]
          simp [normValue_storeValue]
      · simp only [attrsAfter]
        by_cases h : attrGetNorm attrs (entKey e) = some (normValue e.2.2)
        · rw [if_pos h]; exact ih attrs hnd' ent hr
        · rw [if_neg h]; exact ih _ hnd' ent hr

theorem diffTriples_nil_of_eq (md : Metadata) :
    ∀ attrs : AttrMap,
      (∀ ent ∈ md, attrGetNorm attrs (entKey ent) = some (normValue ent.2.2)) →
      diffTriples attrs md = [] ∧ attrsAfter attrs md = attrs := by
  induction md with
  | nil => intro attrs _; exact ⟨rfl, rfl⟩
  | cons e rest ih =>
      intro attrs h
      have he := h e (List.mem_cons_self e rest)
      have hr := ih attrs (fun ent hent => h ent (List.mem_cons_of_mem e hent))
      simp only [diffTriples, attrsAfter, if_pos he]
      exact hr

theorem diffTriples_keys_subset (md : Metadata) :
    ∀ (attrs : AttrMap) (d : String × Option Value × Value),
      d ∈ diffTriples attrs md → d.1 ∈ md.map entKey := by
  induction md with
  | nil => intro _ d h; cases h
  | cons e rest ih =>
      intro attrs d hd
      simp only [diffTriples] at hd
      by_cases h : attrGetNorm attrs (entKey e) = some (normValue e.2.2)
      · rw [if_pos h] at hd
        exact List.mem_cons_of_mem _ (ih attrs d hd)
      · rw [if_neg h] at hd
        rcases List.mem_cons.mp hd with h1 | h2
        · subst h1; exact List.mem_cons_self _ _
        · exact List.mem_cons_of_mem _ (ih _ d h2)

theorem diffTriples_mem_iff (md : Metadata) :
    ∀ attrs : AttrMap, (md.map entKey).Nodup → ∀ ent ∈ md,
      ((entKey ent) ∈ (diffTriples attrs md).map (fun d => d.1) ↔
        attrGetNorm attrs (entKey ent) ≠ some (normValue ent.2.2)) ∧
      (attrGetNorm attrs (entKey ent) ≠ some (normValue ent.2.2) →
        (entKey ent, attrGetNorm attrs (entKey ent), normValue ent.2.2) ∈
          diffTriples attrs md) := by
  induction md with
  | nil => intro _ _ ent h; cases h
  | cons e rest ih =>
      intro attrs hnd ent hent
      have hnd' : (rest.map entKey).Nodup := (List.nodup_cons.mp hnd).2
      have hknot : entKey e ∉ rest.map entKey := (List.nodup_cons.mp hnd).1
      rcases List.mem_cons.mp hent with he | hr
      · subst he
        simp only [diffTriples]
        by_cases h : attrGetNorm attrs (entKey ent) = some (normValue ent.2.2)
        · rw [if_pos h]
          constructor
          · constructor
            · intro hmem
              exfalso
              rcases List.mem_map.mp hmem with ⟨d, hd, hde⟩
              exact hknot (hde ▸ diffTriples_keys_subset rest attrs d hd)
            · intro hne; exact absurd h hne
          · intro hne; exact absurd h hne
        · rw [if_neg h]
          exact ⟨⟨fun _ => h, fun _ => List.mem_cons_self _ _⟩,
                 fun _ => List.mem_cons_self _ _⟩
      · have hkne : entKey ent ≠ entKey e := by
          intro hh
          exact hknot (hh ▸ List.mem_map.mpr ⟨ent, hr, rfl⟩)
        simp only [diffTriples]
        by_cases h : attrGetNorm attrs (entKey e) = some (normValue e.2.2)
        · rw [if_pos h]
          exact ih attrs hnd' ent hr
        · rw [if_neg h]
          have hsame : attrGetNorm (attrSet attrs (entKey e) (storeValue (normValue e.2.2)))
              (entKey ent) = attrGetNorm attrs (entKey ent) := by
            unfold attrGetNorm
            rw [attrGet_attrSet_ne _ _ _ _ hkne]
          have := ih (attrSet attrs (entKey e) (storeValue (normValue e.2.2))) hnd' ent hr
          rw [hsame] at this
          constructor
          · constructor
            · intro hmem
              rcases List.mem_map.mp hmem with ⟨d, hd, hde⟩
              rcases List.mem_cons.mp hd with h1 | h2
              · exfalso; subst h1; exact hkne hde.symm
              · exact this.1.mp (List.mem_map.mpr ⟨d, h2, hde⟩)
            · intro hne
              exact List.mem_map.mpr
                ⟨_, List.mem_cons_of_mem _ (this.2 hne), rfl⟩
          · intro hne
            exact List.mem_cons_of_mem _ (this.2 hne)

theorem write_metadata_fst (attrs : AttrMap) (md : Metadata) :
    (write_metadata attrs md).1 = attrsAfter attrs md := by
  simp [write_metadata, writeMetadataFold_spec]

theorem write_metadata_after (attrs : AttrMap) (md : Metadata)
    (h : ∀ ent ∈ md, attrGetNorm attrs (entKey ent) = some (normValue ent.2.2)) :
    write_metadata attrs md = (attrs, none) := by
  obtain ⟨h1, h2⟩ := diffTriples_nil_of_eq md attrs h
  simp [write_metadata, writeMetadataFold_spec, h1, h2, emptyTask]

theorem updateMetadataRtdc_eq (c : ContainerState) (md : Metadata) :
    updateMetadataRtdc c md =
      match (write_metadata c.attrs md).2 with
      | some task =>
          append_execution_log { c with attrs := (write_metadata c.attrs md).1 } task
      | none => { c with attrs := (write_metadata c.attrs md).1 } := rfl

/-! ## Claims C2, C3, C10 -/

/-- C2: for every stored attribute state and proposed attribute set
(with distinct flattened keys), the task record assembled by
`write_metadata` contains `section:key` among its `new` keys if and
only if the proposed value differs from the stored value after decoding
byte strings to text on both sides (the code's normalization); and a
key absent from the container is recorded with `none` (Python `None`)
as its old value and the (normalized) proposed value as its new value. -/
theorem write_metadata_diff_minimal (attrs : AttrMap) (md : Metadata)
    (hnd : (md.map entKey).Nodup)
    (sec key : String) (v : Value) (hmem : (sec, key, v) ∈ md) :
    (h5keyOf sec key ∈ (md.foldl writeMetadataStep (attrs, emptyTask)).2.new.map Prod.fst ↔
      attrGetNorm attrs (h5keyOf sec key) ≠ some (normValue v)) ∧
    (attrGet attrs (h5keyOf sec key) = none →
      (h5keyOf sec key, (none : Option Value)) ∈
        (md.foldl writeMetadataStep (attrs, emptyTask)).2.old ∧
      (h5keyOf sec key, normValue v) ∈
        (md.foldl writeMetadataStep (attrs, emptyTask)).2.new) := by
  have hspec := writeMetadataFold_spec md attrs emptyTask
  have hkey : entKey (sec, key, v) = h5keyOf sec key := rfl
  have hmain := diffTriples_mem_iff md attrs hnd (sec, key, v) hmem
  rw [hkey] at hmain
  constructor
  · rw [hspec]
    simp only [emptyTask, List.nil_append, List.map_map]
    have : ((diffTriples attrs md).map
        (Prod.fst ∘ fun d => (d.1, d.2.2))) =
        (diffTriples attrs md).map (fun d => d.1) := by
      apply List.map_congr_left; intro d _; rfl
    rw [this]
    exact hmain.1
  · intro habs
    have hnorm : attrGetNorm attrs (h5keyOf sec key) = none := by
      unfold attrGetNorm; rw [habs]; rfl
    have hne : attrGetNorm attrs (h5keyOf sec key) ≠ some (normValue v) := by
      rw [hnorm]; intro hh; cases hh
    have htr := hmain.2 hne
    rw [hnorm] at htr
    rw [hspec]
    constructor
    · simp only [emptyTask, List.nil_append]
      exact List.mem_map.mpr ⟨_, htr, rfl⟩
    · simp only [emptyTask, List.nil_append]
      exact List.mem_map.mpr ⟨_, htr, rfl⟩

/-- Witness for C2 at the spec's own example: current attrs
`{a:a → 1, a:b → 2}`, proposed `{a:a → 1, a:b → 3, a:c → 4}`. -/
theorem write_metadata_diff_minimal_witness :
    let attrs : AttrMap := [("a:a", Value.vInt 1), ("a:b", Value.vInt 2)]
    let md : Metadata :=
      [("a", "a", Value.vInt 1), ("a", "b", Value.vInt 3), ("a", "c", Value.vInt 4)]
    ("a:c" ∈ (md.foldl writeMetadataStep (attrs, emptyTask)).2.new.map Prod.fst ↔
      attrGetNorm attrs "a:c" ≠ some (normValue (Value.vInt 4))) ∧
    (attrGet attrs "a:c" = none →
      ("a:c", (none : Option Value)) ∈
        (md.foldl writeMetadataStep (attrs, emptyTask)).2.old ∧
      ("a:c", normValue (Value.vInt 4)) ∈
        (md.foldl writeMetadataStep (attrs, emptyTask)).2.new) :=
  write_metadata_diff_minimal
    [("a:a", Value.vInt 1), ("a:b", Value.vInt 2)]
    [("a", "a", Value.vInt 1), ("a", "b", Value.vInt 3), ("a", "c", Value.vInt 4)]
    (by decide) "a" "c" (Value.vInt 4) (by decide)

/-- C3: applying the same metadata patch twice in a row (distinct
flattened keys; the first call changed something) makes the second call
return `none` with the attribute store unchanged, so exactly one history
entry is appended in total. -/
theorem metadata_patch_idempotent (c : ContainerState) (md : Metadata)
    (hnd : (md.map entKey).Nodup)
    (hchanged : (write_metadata c.attrs md).2.isSome) :
    write_metadata (updateMetadataRtdc c md).attrs md =
      ((updateMetadataRtdc c md).attrs, none) ∧
    updateMetadataRtdc (updateMetadataRtdc c md) md = updateMetadataRtdc c md ∧
    (updateMetadataRtdc (updateMetadataRtdc c md) md).history.length =
      c.history.length + 1 := by
  obtain ⟨t, ht⟩ := Option.isSome_iff_exists.mp hchanged
  have hattrs : (updateMetadataRtdc c md).attrs = attrsAfter c.attrs md := by
    rw [updateMetadataRtdc_eq, ht]
    simp [append_execution_log, append_history, write_metadata_fst]
  have hall : ∀ ent ∈ md,
      attrGetNorm (attrsAfter c.attrs md) (entKey ent) = some (normValue ent.2.2) :=
    attrsAfter_mem md c.attrs hnd
  have hsecond : write_metadata (attrsAfter c.attrs md) md =
      (attrsAfter c.attrs md, none) :=
    write_metadata_after _ md hall
  have h1 : write_metadata (updateMetadataRtdc c md).attrs md =
      ((updateMetadataRtdc c md).attrs, none) := by
    rw [hattrs]; exact hsecond
  have h2 : updateMetadataRtdc (updateMetadataRtdc c md) md = updateMetadataRtdc c md := by
    rw [updateMetadataRtdc_eq (updateMetadataRtdc c md), h1]
  have h3 : (updateMetadataRtdc c md).history.length = c.history.length + 1 := by
    rw [updateMetadataRtdc_eq, ht]
    simp [append_execution_log, append_history]
  rw [h2]
  exact ⟨h1, rfl, h3⟩

/-- Witness for C3: one string-valued sample-name patch on an empty
container appends exactly one history entry even when applied twice. -/
theorem metadata_patch_idempotent_witness :
    let c : ContainerState := { attrs := [], history := [], logs := [] }
    let md : Metadata := [("experiment", "sample", Value.vStr "abc")]
    write_metadata (updateMetadataRtdc c md).attrs md =
      ((updateMetadataRtdc c md).attrs, none) ∧
    updateMetadataRtdc (updateMetadataRtdc c md) md = updateMetadataRtdc c md ∧
    (updateMetadataRtdc (updateMetadataRtdc c md) md).history.length =
      ({ attrs := [], history := [], logs := [] } : ContainerState).history.length + 1 :=
  metadata_patch_idempotent
    { attrs := [], history := [], logs := [] }
    [("experiment", "sample", Value.vStr "abc")]
    (by decide) (by decide)

/-- C10: every task record actually returned by `write_metadata` lists
exactly the same keys, in the same order, in its `old` and `new`
mappings, and its `new` mapping is non-empty. -/
theorem write_metadata_task_wellformed (attrs : AttrMap) (md : Metadata)
    (a : AttrMap) (t : TaskRecord)
    (h : write_metadata attrs md = (a, some t)) :
    t.old.map Prod.fst = t.new.map Prod.fst ∧ t.new ≠ [] := by
  have hspec := writeMetadataFold_spec md attrs emptyTask
  unfold write_metadata at h
  rw [hspec] at h
  simp only [emptyTask, List.nil_append] at h
  by_cases hd : diffTriples attrs md = []
  · rw [hd] at h
    simp at h
  · have hbool : ((diffTriples attrs md).map (fun d => (d.1, d.2.2))).isEmpty = false := by
      cases hdt : diffTriples attrs md with
      | nil => exact absurd hdt hd
      | cons x xs => simp
    rw [hbool] at h
    simp only [Bool.false_eq_true, if_false] at h
    have hsnd := congrArg Prod.snd h
    simp only [Option.some.injEq] at hsnd
    rw [← hsnd]
    constructor
    · simp only [List.map_map]
      apply List.map_congr_left; intro d _; rfl
    · simp only [ne_eq]
      intro hh
      exact hd (List.map_eq_nil_iff.mp hh)

/-- Witness for C10 at a one-key change. -/
theorem write_metadata_task_wellformed_witness :
    ({ name := "update metadata",
       old := [("a:b", some (Value.vInt 2))],
       new := [("a:b", Value.vInt 3)] } : TaskRecord).old.map Prod.fst =
      ({ name := "update metadata",
         old := [("a:b", some (Value.vInt 2))],
         new := [("a:b", Value.vInt 3)] } : TaskRecord).new.map Prod.fst ∧
    ({ name := "update metadata",
       old := [("a:b", some (Value.vInt 2))],
       new := [("a:b", Value.vInt 3)] } : TaskRecord).new ≠ [] :=
  write_metadata_task_wellformed
    [("a:b", Value.vInt 2)] [("a", "b", Value.vInt 3)]
    [("a:b", Value.vInt 3)]
    { name := "update metadata",
      old := [("a:b", some (Value.vInt 2))],
      new := [("a:b", Value.vInt 3)] }
    (by decide)

theorem on_task_metadata_fold (rows : List MetaRow) :
    ∀ acc : MetaResult,
      (rows.foldl on_task_metadata_step acc).rows =
        acc.rows ++ rows.map (fun row => (row.path,
          if pathSuffix row.path = ".tdms" then row.container
          else updateMetadataRtdc row.container row.metadata)) ∧
      (rows.foldl on_task_metadata_step acc).invalid =
        acc.invalid ++
          (rows.filter (fun row => pathSuffix row.path = ".tdms")).map
            (fun row => row.path) := by
  induction rows with
  | nil => intro acc; simp
  | cons row rest ih =>
      intro acc
      simp only [List.foldl_cons, List.map_cons, List.filter_cons]
      by_cases h : pathSuffix row.path = ".tdms"
      · simp only [on_task_metadata_step, if_pos h, h]
        rw [(ih _).1, (ih _).2]
        simp
      · simp only [on_task_metadata_step, if_neg h, h]
        cases hr : (write_metadata row.container.attrs row.metadata).2 with
        | some task =>
            simp only [hr]
            rw [(ih _).1, (ih _).2]
            refine ⟨?_, by simp⟩
            simp [updateMetadataRtdc_eq, hr]
        | none =>
            simp only [hr]
            rw [(ih _).1, (ih _).2]
            refine ⟨?_, by simp⟩
            simp [updateMetadataRtdc_eq, hr]

/-- C6: the metadata batch never attempts the attribute patch on a
`.tdms` (legacy multi-file format) path: every such row's container
comes out byte-identical and the path is listed in the distinct
unsupported-format report that tells the user to convert the file
first, while every non-tdms row in the same pass still receives the
patch. -/
theorem metadata_tdms_routed (rows : List MetaRow) :
    (on_task_metadata rows).1.rows =
      rows.map (fun row => (row.path,
        if pathSuffix row.path = ".tdms" then row.container
        else updateMetadataRtdc row.container row.metadata)) ∧
    (on_task_metadata rows).1.invalid =
      (rows.filter (fun row => pathSuffix row.path = ".tdms")).map
        (fun row => row.path) ∧
    ((on_task_metadata rows).1.invalid ≠ [] →
      (on_task_metadata rows).2 = some metadataUnsupportedMessage) := by
  have hf := on_task_metadata_fold rows { rows := [], invalid := [], details := [] }
  refine ⟨by simpa using hf.1, by simpa using hf.2, ?_⟩
  intro hne
  simp only [on_task_metadata] at hne ⊢
  rw [if_neg (by simpa [List.isEmpty_iff] using hne)]

/-- Witness for C6 (the third conjunct has the hypothesis that some
`.tdms` file occurred): one `.tdms` row and one `.rtdc` row. -/
theorem metadata_tdms_routed_witness :
    let tdmsRow : MetaRow :=
      { path := { dir := "d", name := "m.tdms" },
        container := { attrs := [], history := [], logs := [] },
        metadata := [("experiment", "sample", Value.vStr "s")] }
    let rtdcRow : MetaRow :=
      { path := { dir := "d", name := "m.rtdc" },
        container := { attrs := [], history := [], logs := [] },
        metadata := [("experiment", "sample", Value.vStr "s")] }
    (on_task_metadata [tdmsRow, rtdcRow]).1.invalid ≠ [] ∧
    (on_task_metadata [tdmsRow, rtdcRow]).2 = some metadataUnsupportedMessage := by
  intro tdmsRow rtdcRow
  have hne : (on_task_metadata [tdmsRow, rtdcRow]).1.invalid ≠ [] := by decide
  exact ⟨hne, (metadata_tdms_routed [tdmsRow, rtdcRow]).2.2 hne⟩

theorem fsGet_fsSet_self (fs : FS) (p : Path) (f : DiskFile) :
    fsGet (fsSet fs p f) p = some f := by
  induction fs with
  | nil => simp [fsSet, fsGet]
  | cons e r ih =>
      obtain ⟨q, g⟩ := e
      by_cases h : q = p
      · simp [fsSet, fsGet, h]
      · simp [fsSet, fsGet, h, ih]

theorem fsGet_fsSet_ne (fs : FS) (p q : Path) (f : DiskFile)
    (h : q ≠ p) : fsGet (fsSet fs p f) q = fsGet fs q := by
  have h1 : ¬ p = q := fun hh => h hh.symm
  induction fs with
  | nil => simp only [fsSet, fsGet, if_neg h1]
  | cons e r ih =>
      obtain ⟨q', g⟩ := e
      by_cases hq : q' = p
      · have h2 : ¬ q' = q := by rw [hq]; exact h1
        simp only [fsSet, if_pos hq, fsGet, if_neg h1, if_neg h2]
      · by_cases hq' : q' = q
        · simp only [fsSet, if_neg hq, fsGet, if_pos hq']
        · simp only [fsSet, if_neg hq, fsGet, if_neg hq', ih]

theorem fsGet_fsErase_self (fs : FS) (p : Path) :
    fsGet (fsErase fs p) p = none := by
  induction fs with
  | nil => rfl
  | cons e r ih =>
      obtain ⟨q, g⟩ := e
      by_cases h : q = p
      · simp [fsErase, h, ih]
      · simp [fsErase, fsGet, h, ih]

theorem fsGet_fsErase_ne (fs : FS) (p q : Path) (h : q ≠ p) :
    fsGet (fsErase fs p) q = fsGet fs q := by
  induction fs with
  | nil => rfl
  | cons e r ih =>
      obtain ⟨q', g⟩ := e
      by_cases hq : q' = p
      · have h2 : ¬ q' = q := by rw [hq]; exact fun hh => h hh.symm
        simp only [fsErase, if_pos hq, fsGet, if_neg h2, ih]
      · by_cases hq' : q' = q
        · simp only [fsErase, if_neg hq, fsGet, if_pos hq']
        · simp only [fsErase, if_neg hq, fsGet, if_neg hq', ih]

theorem repackTempPath_ne (p : Path) : repackTempPath p ≠ p := by
  intro h
  have hn : "." ++ p.name ++ "_repack.temp" = p.name := congrArg Path.name h
  have hlen := congrArg String.length hn
  rw [String.length_append, String.length_append] at hlen
  have h1 : (".").length = 1 := rfl
  have h2 : ("_repack.temp").length = 12 := rfl
  rw [h1, h2] at hlen
  omega

/-! ## Claims C1 and C7 -/

/-- C1: if the repack function raises (and, per its contract, has
written only to the temporary path), the wrapper deletes the temporary
file, leaves the original file byte-identical, and re-raises the same
exception. -/
theorem repack_failure_atomic (repackFn : FS → Except (String × FS) FS)
    (path : Path) (fs : FS) (exc : String) (fs₁ : FS)
    (hfail : repackFn fs = Except.error (exc, fs₁))
    (honly : ∀ q : Path, q ≠ repackTempPath path → fsGet fs₁ q = fsGet fs q) :
    ∃ fs' evs, repack true repackFn path fs = Except.error (exc, fs', evs) ∧
      fsGet fs' path = fsGet fs path ∧
      fsGet fs' (repackTempPath path) = none := by
  have hne : path ≠ repackTempPath path := fun h => repackTempPath_ne path h.symm
  by_cases hex : (fsGet fs₁ (repackTempPath path)).isSome
  · refine ⟨fsErase fs₁ (repackTempPath path), [FsEvent.unlink (repackTempPath path)],
      ?_, ?_, ?_⟩
    · simp [repack, hfail, hex]
    · rw [fsGet_fsErase_ne fs₁ _ _ hne]
      exact honly path hne
    · exact fsGet_fsErase_self fs₁ _
  · refine ⟨fs₁, [], ?_, ?_, ?_⟩
    · simp [repack, hfail, hex]
    · exact honly path hne
    · exact Option.not_isSome_iff_eq_none.mp hex

/-- Witness for C1: a repack function that writes a partial temporary
file and then fails on a one-file filesystem. -/
theorem repack_failure_atomic_witness :
    let p : Path := { dir := "d", name := "a.rtdc" }
    let fs : FS := [(p, DiskFile.container { attrs := [], history := [], logs := [] })]
    let rf : FS → Except (String × FS) FS :=
      fun s => Except.error ("boom", fsSet s (repackTempPath p) DiskFile.truncatedFile)
    ∃ fs' evs, repack true rf p fs = Except.error ("boom", fs', evs) ∧
      fsGet fs' p = fsGet fs p ∧
      fsGet fs' (repackTempPath p) = none := by
  intro p fs rf
  exact repack_failure_atomic rf p fs "boom"
    (fsSet fs (repackTempPath p) DiskFile.truncatedFile) rfl
    (fun q hq => fsGet_fsSet_ne fs (repackTempPath p) q DiskFile.truncatedFile hq)

/-- C7: on success of the repack function, the wrapper used the sibling
temporary path (same directory, a hidden name prefixed with a dot and
derived from the original name), and its destructive operations are
exactly the deletion of the original followed — strictly afterwards —
by the rename of the temporary file onto the original name. -/
theorem repack_success_protocol (repackFn : FS → Except (String × FS) FS)
    (path : Path) (fs fs₁ : FS) (f : DiskFile)
    (hok : repackFn fs = Except.ok fs₁)
    (htemp : fsGet fs₁ (repackTempPath path) = some f) :
    repack true repackFn path fs =
      Except.ok (fsSet (fsErase (fsErase fs₁ path) (repackTempPath path)) path f,
                 [FsEvent.unlink path, FsEvent.rename (repackTempPath path) path]) ∧
    (repackTempPath path).dir = path.dir ∧
    (repackTempPath path).name = "." ++ path.name ++ "_repack.temp" ∧
    [FsEvent.unlink path, FsEvent.rename (repackTempPath path) path].indexOf
        (FsEvent.unlink path) <
      [FsEvent.unlink path, FsEvent.rename (repackTempPath path) path].indexOf
        (FsEvent.rename (repackTempPath path) path) := by
  have hne : path ≠ repackTempPath path := fun h => repackTempPath_ne path h.symm
  have htemp₂ : fsGet (fsErase fs₁ path) (repackTempPath path) = some f := by
    rw [fsGet_fsErase_ne fs₁ _ _ (repackTempPath_ne path)]
    exact htemp
  refine ⟨?_, rfl, rfl, ?_⟩
  · simp [repack, hok, htemp₂]
  · have hdiff : FsEvent.unlink path ≠ FsEvent.rename (repackTempPath path) path := by
      intro hh; cases hh
    simp [List.indexOf_cons, hdiff]

/-- Witness for C7: a repack function that writes the stripped container
to the temporary path on a one-file filesystem. -/
theorem repack_success_protocol_witness :
    let p : Path := { dir := "d", name := "a.rtdc" }
    let c : ContainerState := { attrs := [], history := [], logs := [] }
    let fs : FS := [(p, DiskFile.container c)]
    let rf : FS → Except (String × FS) FS :=
      fun s => Except.ok (fsSet s (repackTempPath p) (DiskFile.container c))
    repack true rf p fs =
      Except.ok (fsSet (fsErase (fsErase (fsSet fs (repackTempPath p)
          (DiskFile.container c)) p) (repackTempPath p)) p (DiskFile.container c),
        [FsEvent.unlink p, FsEvent.rename (repackTempPath p) p]) ∧
    (repackTempPath p).dir = p.dir ∧
    (repackTempPath p).name = "." ++ p.name ++ "_repack.temp" ∧
    [FsEvent.unlink p, FsEvent.rename (repackTempPath p) p].indexOf
        (FsEvent.unlink p) <
      [FsEvent.unlink p, FsEvent.rename (repackTempPath p) p].indexOf
        (FsEvent.rename (repackTempPath p) p) := by
  intro p c fs rf
  exact repack_success_protocol rf p fs
    (fsSet fs (repackTempPath p) (DiskFile.container c)) (DiskFile.container c)
    rfl (by rw [fsGet_fsSet_self])

theorem stringMk_data (l : List Char) : (String.mk l).data = l := rfl

theorem utf8Bytes_lt_256 (c : Char) : ∀ b ∈ utf8Bytes c, b < 256 := by
  intro b hb
  have hv : c.toNat < 1114112 := by
    rcases c.valid with h | ⟨_, h2⟩
    · exact Nat.lt_trans h (by norm_num)
    · exact h2
  unfold utf8Bytes at hb
  by_cases h1 : c.toNat < 128
  · simp [h1] at hb; omega
  · by_cases h2 : c.toNat < 2048
    · simp [h1, h2] at hb
      have hd : c.toNat / 64 < 32 := Nat.div_lt_of_lt_mul (by omega)
      have hm : c.toNat % 64 < 64 := Nat.mod_lt _ (by omega)
      rcases hb with hb | hb <;> omega
    · by_cases h3 : c.toNat < 65536
      · simp [h1, h2, h3] at hb
        have hd : c.toNat / 4096 < 16 := Nat.div_lt_of_lt_mul (by omega)
        have hm1 : c.toNat / 64 % 64 < 64 := Nat.mod_lt _ (by omega)
        have hm : c.toNat % 64 < 64 := Nat.mod_lt _ (by omega)
        rcases hb with hb | hb | hb <;> omega
      · simp [h1, h2, h3] at hb
        have hd : c.toNat / 262144 < 5 := Nat.div_lt_of_lt_mul (by omega)
        have hm2 : c.toNat / 4096 % 64 < 64 := Nat.mod_lt _ (by omega)
        have hm1 : c.toNat / 64 % 64 < 64 := Nat.mod_lt _ (by omega)
        have hm : c.toNat % 64 < 64 := Nat.mod_lt _ (by omega)
        rcases hb with hb | hb | hb | hb <;> omega

theorem byte_replace_eq : ∀ b : Nat, b < 256 →
    (if (if b < 128 then Char.ofNat b else Char.ofNat 65533) = Char.ofNat 65533
       then '?' else if b < 128 then Char.ofNat b else Char.ofNat 65533) =
    (if b < 128 then Char.ofNat b else '?') := by decide

/-! ## Claim C4 -/

/-- C4 counterexample: at the spec's own example input the derived name
is not `"2019-01-01_M1_M?ller_Test_abc12345.rtdc"` — the two UTF-8
bytes of `"ü"` each become one `"?"`. -/
theorem output_name_sanitization_counterexample :
    composeOutputName "2019-01-01" 1 "Müller Test" "abc12345" ≠
      "2019-01-01_M1_M?ller_Test_abc12345.rtdc" := by decide

/-- C4 amended: the sanitizer replaces each space with an underscore and
substitutes one `"?"` for every single byte of the UTF-8 encoding that
is not ASCII (so a two-byte code point like `"ü"` yields `"??"`; no
run collapsing happens), and the example input therefore derives
`"2019-01-01_M1_M??ller_Test_abc12345.rtdc"`. -/
theorem output_name_sanitization_amended :
    (∀ s : String, sanitizeSampleName s = String.mk
      ((s.data.map (fun c => if c = ' ' then '_' else c)).map
        (fun c => (utf8Bytes c).map
          (fun b => if b < 128 then Char.ofNat b else '?'))).flatten) ∧
    composeOutputName "2019-01-01" 1 "Müller Test" "abc12345" =
      "2019-01-01_M1_M??ller_Test_abc12345.rtdc" := by
  constructor
  · intro s
    unfold sanitizeSampleName
    apply congrArg String.mk
    rw [List.map_map, List.map_flatten, List.map_map]
    apply congrArg List.flatten
    apply List.map_congr_left
    intro c _
    apply List.map_congr_left
    intro b hb
    exact byte_replace_eq b (utf8Bytes_lt_256 c b hb)
  · decide

/-! ## Claim C8 -/

/-- C8: the output namer is a pure function of the origin's date, run
index, content and the sample name — equal inputs give equal names —
and, keeping date, run index and sample fixed, whenever the 8-character
hash prefix of the content differs (a one-byte content change does,
hash collisions aside, as the spec itself notes) the derived names
differ. -/
theorem output_name_deterministic (o₁ o₂ : OriginFile) (sample : String)
    (hdate : o₁.date = o₂.date) (hrun : o₁.runIndex = o₂.runIndex) :
    (o₁.content = o₂.content →
      get_rtdc_output_name o₁ sample = get_rtdc_output_name o₂ sample) ∧
    ((sha256hexChars o₁.content).take 8 ≠ (sha256hexChars o₂.content).take 8 →
      get_rtdc_output_name o₁ sample ≠ get_rtdc_output_name o₂ sample) := by
  constructor
  · intro hc
    unfold get_rtdc_output_name
    rw [hdate, hrun, hc]
  · intro hne hcontra
    apply hne
    unfold get_rtdc_output_name composeOutputName at hcontra
    rw [← hdate, ← hrun] at hcontra
    have hd := congrArg String.data hcontra
    simp only [String.data_append, List.append_assoc, stringMk_data] at hd
    have h1 := List.append_cancel_left hd
    have h2 := List.append_cancel_left h1
    have h3 := List.append_cancel_left h2
    have h4 := List.append_cancel_left h3
    have h5 := List.append_cancel_left h4
    have h6 := List.append_cancel_left h5
    exact List.append_cancel_right h6

/-- Witness for C8: origins differing in one content byte; the hash
prefixes differ, hence so do the names. -/
theorem output_name_deterministic_witness :
    let o₁ : OriginFile := { date := "2019-01-01", runIndex := 1, content := [97] }
    let o₂ : OriginFile := { date := "2019-01-01", runIndex := 1, content := [98] }
    get_rtdc_output_name o₁ "Sample" = get_rtdc_output_name o₁ "Sample" ∧
    get_rtdc_output_name o₁ "Sample" ≠ get_rtdc_output_name o₂ "Sample" := by
  intro o₁ o₂
  refine ⟨(output_name_deterministic o₁ o₁ "Sample" rfl rfl).1 rfl, ?_⟩
  exact (output_name_deterministic o₁ o₂ "Sample" rfl rfl).2 (by decide)

theorem tdms2rtdcStep_false_ok (rf : FS → Except (String × FS) FS) (pout : String)
    (st : BatchState) (inp : BatchInput) :
    ∃ st', tdms2rtdcStep false rf pout st inp = Except.ok st' ∧
      st'.errors = st.errors ++ stepErrors inp ∧
      st'.details = st.details ++ stepDetails pout inp := by
  by_cases h : pathSuffix inp.path = ".tdms"
  · cases ho : inp.outcome with
    | fail b err =>
        refine ⟨{ st with
            outputs :=
              (fun fs₁ => if (fsGet fs₁ (outPath pout inp)).isSome then
                  fsErase fs₁ (outPath pout inp) else fs₁)
                (if b then fsSet st.outputs (outPath pout inp) DiskFile.truncatedFile
                 else st.outputs),
            errors := st.errors ++ [(inp.path, err)] }, ?_, ?_, ?_⟩
        · simp [tdms2rtdcStep, h, ho]
        · simp [stepErrors, h, ho]
        · simp [stepDetails, h, ho]
    | ok c₀ =>
        refine ⟨processConverted "convert .tdms to .rtdc" pout st inp c₀, ?_, ?_, ?_⟩
        · simp [tdms2rtdcStep, h, ho, repack]
        · simp [stepErrors, h, ho, processConverted]
        · simp [stepDetails, h, ho, processConverted]
  · refine ⟨{ st with invalid := st.invalid ++ [inp.path] }, ?_, ?_, ?_⟩
    · simp [tdms2rtdcStep, h]
    · simp [stepErrors, h]
    · simp [stepDetails, h]

theorem tdms2rtdc_fold_ok (rf : FS → Except (String × FS) FS) (pout : String)
    (inputs : List BatchInput) :
    ∀ st₀ : BatchState,
      ∃ st, foldBatch (tdms2rtdcStep false rf pout) st₀ inputs = Except.ok st ∧
        st.errors = st₀.errors ++ (inputs.map stepErrors).flatten ∧
        st.details = st₀.details ++ (inputs.map (stepDetails pout)).flatten := by
  induction inputs with
  | nil => intro st₀; exact ⟨st₀, rfl, by simp, by simp⟩
  | cons inp rest ih =>
      intro st₀
      obtain ⟨st₁, hstep, he₁, hd₁⟩ := tdms2rtdcStep_false_ok rf pout st₀ inp
      obtain ⟨st, hfold, he, hd⟩ := ih st₁
      refine ⟨st, ?_, ?_, ?_⟩
      · simp [foldBatch, hstep, hfold]
      · rw [he, he₁]; simp
      · rw [hd, hd₁]; simp

/-! ## Claim C5 -/

/-- C5 counterexample: a compression batch of three `.rtdc` inputs
whose second fails does not process the remaining file — the exception
aborts the batch with only the first file's detail recorded, refuting
the claim for the compression batch. -/
theorem compress_batch_abort_counterexample :
    let c : ContainerState := { attrs := [], history := [], logs := [] }
    let md : Metadata := [("experiment", "sample", Value.vStr "s")]
    let i1 : BatchInput :=
      { path := { dir := "in", name := "a.rtdc" },
        origin := { date := "2019-01-01", runIndex := 1, content := [1] },
        metadata := md, sample := "s", outcome := ConvOutcome.ok c }
    let i2 : BatchInput :=
      { path := { dir := "in", name := "b.rtdc" },
        origin := { date := "2019-01-01", runIndex := 2, content := [2] },
        metadata := md, sample := "s", outcome := ConvOutcome.fail false "boom" }
    let i3 : BatchInput :=
      { path := { dir := "in", name := "c.rtdc" },
        origin := { date := "2019-01-01", runIndex := 3, content := [3] },
        metadata := md, sample := "s", outcome := ConvOutcome.ok c }
    batchAbortErr (on_task_compress false (fun s => Except.ok s) "out" [i1, i2, i3]) =
      some "boom" ∧
    (batchAbortDetails
        (on_task_compress false (fun s => Except.ok s) "out" [i1, i2, i3])).map
      List.length = some 1 ∧
    batchAbortErrors (on_task_compress false (fun s => Except.ok s) "out" [i1, i2, i3]) =
      some [] := by
  decide

/-- C5 amended: in the `.tdms`-to-`.rtdc` conversion batch (with the
repack checkbox off), one file's failure is captured per-file and does
not abort the rest: the batch always completes, every failing `.tdms`
input is recorded in `errors` with its cause, and every successful
`.tdms` input is reported in `details` with its derived output name.
The compression batch does not catch per-file failures. -/
theorem tdms2rtdc_failures_collected (rf : FS → Except (String × FS) FS)
    (pout : String) (inputs : List BatchInput) :
    ∃ st, on_task_tdms2rtdc false rf pout inputs = Except.ok st ∧
      ∀ inp ∈ inputs, pathSuffix inp.path = ".tdms" →
        (∀ b err, inp.outcome = ConvOutcome.fail b err → (inp.path, err) ∈ st.errors) ∧
        (∀ c, inp.outcome = ConvOutcome.ok c →
          inp.path.full ++ " -> " ++ (outPath pout inp).full ∈ st.details) := by
  obtain ⟨st, hfold, he, hd⟩ := tdms2rtdc_fold_ok rf pout inputs emptyBatchState
  refine ⟨st, hfold, ?_⟩
  intro inp hmem htd
  constructor
  · intro b err ho
    rw [he]
    refine List.mem_append.mpr (Or.inr (List.mem_flatten.mpr
      ⟨stepErrors inp, List.mem_map.mpr ⟨inp, hmem, rfl⟩, ?_⟩))
    simp [stepErrors, htd, ho]
  · intro c ho
    rw [hd]
    refine List.mem_append.mpr (Or.inr (List.mem_flatten.mpr
      ⟨stepDetails pout inp, List.mem_map.mpr ⟨inp, hmem, rfl⟩, ?_⟩))
    simp [stepDetails, htd, ho]

/-- Witness for C5's amended theorem: three `.tdms` inputs whose second
fails; the first and third are reported as successes with their derived
names and the second's cause is captured. -/
theorem tdms2rtdc_failures_collected_witness :
    let c : ContainerState := { attrs := [], history := [], logs := [] }
    let md : Metadata := [("experiment", "sample", Value.vStr "s")]
    let i1 : BatchInput :=
      { path := { dir := "in", name := "a.tdms" },
        origin := { date := "2019-01-01", runIndex := 1, content := [1] },
        metadata := md, sample := "s", outcome := ConvOutcome.ok c }
    let i2 : BatchInput :=
      { path := { dir := "in", name := "b.tdms" },
        origin := { date := "2019-01-01", runIndex := 2, content := [2] },
        metadata := md, sample := "s", outcome := ConvOutcome.fail false "boom" }
    let i3 : BatchInput :=
      { path := { dir := "in", name := "c.tdms" },
        origin := { date := "2019-01-01", runIndex := 3, content := [3] },
        metadata := md, sample := "s", outcome := ConvOutcome.ok c }
    ∃ st, on_task_tdms2rtdc false (fun s => Except.ok s) "out" [i1, i2, i3] = Except.ok st ∧
      (i2.path, "boom") ∈ st.errors ∧
      i1.path.full ++ " -> " ++ (outPath "out" i1).full ∈ st.details ∧
      i3.path.full ++ " -> " ++ (outPath "out" i3).full ∈ st.details := by
  intro c md i1 i2 i3
  obtain ⟨st, hok, hprop⟩ :=
    tdms2rtdc_failures_collected (fun s => Except.ok s) "out" [i1, i2, i3]
  refine ⟨st, hok, ?_, ?_, ?_⟩
  · exact (hprop i2 (by simp) (by decide)).1 false "boom" rfl
  · exact (hprop i1 (by simp) (by decide)).2 c rfl
  · exact (hprop i3 (by simp) (by decide)).2 c rfl

/-! ## Claim C9 -/

theorem writeLog_name_last (p : Path) (lname : String) :
    (pathStem p ++ "_" ++ lname ++ ".log").data.getLast? = some 'g' := by
  rw [String.data_append, List.getLast?_append_of_ne_nil _ (by decide)]
  rfl

theorem outName_last (o : OriginFile) (s : String) :
    (get_rtdc_output_name o s).data.getLast? = some 'c' := by
  unfold get_rtdc_output_name composeOutputName
  rw [String.data_append, List.getLast?_append_of_ne_nil _ (by decide)]
  rfl

theorem writeLog_foldl_preserves (l : List (String × List String)) :
    ∀ (fs : FS) (p q : Path), q.name.data.getLast? ≠ some 'g' →
      fsGet (l.foldl (writeLogStep p) fs) q = fsGet fs q := by
  induction l with
  | nil => intro fs p q _; rfl
  | cons e rest ih =>
      intro fs p q hq
      simp only [List.foldl_cons]
      rw [ih _ p q hq]
      unfold writeLogStep
      by_cases hc : strContainsB e.1 "warnings"
      · rw [if_pos hc]
        apply fsGet_fsSet_ne
        intro hqe
        apply hq
        rw [hqe]
        exact writeLog_name_last p e.1
      · rw [if_neg hc]

theorem extract_warning_logs_preserves (fs : FS) (p : Path) (c : ContainerState)
    (q : Path) (hq : q.name.data.getLast? ≠ some 'g') :
    fsGet (extract_warning_logs fs p c) q = fsGet fs q :=
  writeLog_foldl_preserves c.logs fs p q hq

theorem tdms2rtdcStep_preserves (rf : FS → Except (String × FS) FS) (pout : String)
    (st : BatchState) (inp : BatchInput) (st' : BatchState)
    (hstep : tdms2rtdcStep false rf pout st inp = Except.ok st')
    (q : Path) (hq1 : q ≠ outPath pout inp) (hq2 : q.name.data.getLast? ≠ some 'g') :
    fsGet st'.outputs q = fsGet st.outputs q := by
  unfold tdms2rtdcStep at hstep
  by_cases h : pathSuffix inp.path = ".tdms"
  · rw [if_pos h] at hstep
    cases ho : inp.outcome with
    | fail b err =>
        rw [ho] at hstep
        have hst' := (Except.ok.injEq _ _ ▸ hstep)
        have hfs1 : fsGet (if b then fsSet st.outputs (outPath pout inp)
            DiskFile.truncatedFile else st.outputs) q = fsGet st.outputs q := by
          cases b
          · rfl
          · exact fsGet_fsSet_ne _ _ _ _ hq1
        rw [← hst']
        show fsGet (if _ then _ else _) q = fsGet st.outputs q
        generalize hg : (if b = true then fsSet st.outputs (outPath pout inp)
            DiskFile.truncatedFile else st.outputs) = fs₁
        rw [hg] at hfs1
        split
        · rw [fsGet_fsErase_ne _ _ _ hq1]; exact hfs1
        · exact hfs1
    | ok c₀ =>
        rw [ho] at hstep
        simp only [repack, Bool.not_false, if_true] at hstep
        have hst' := (Except.ok.injEq _ _ ▸ hstep)
        rw [← hst']
        show fsGet (processConverted "convert .tdms to .rtdc" pout st inp c₀).outputs q =
          fsGet st.outputs q
        unfold processConverted
        rw [extract_warning_logs_preserves _ _ _ _ hq2, fsGet_fsSet_ne _ _ _ _ hq1]
  · rw [if_neg h] at hstep
    have hst' := (Except.ok.injEq _ _ ▸ hstep)
    rw [← hst']

theorem tdms2rtdcStep_fail_out (rf : FS → Except (String × FS) FS) (pout : String)
    (st : BatchState) (inp : BatchInput) (st' : BatchState) (b : Bool) (err : String)
    (h : pathSuffix inp.path = ".tdms") (ho : inp.outcome = ConvOutcome.fail b err)
    (hstep : tdms2rtdcStep false rf pout st inp = Except.ok st') :
    fsGet st'.outputs (outPath pout inp) = none ∧
    st'.errors = st.errors ++ [(inp.path, err)] := by
  unfold tdms2rtdcStep at hstep
  rw [if_pos h, ho] at hstep
  have hst' := (Except.ok.injEq _ _ ▸ hstep)
  rw [← hst']
  refine ⟨?_, rfl⟩
  show fsGet (if _ then _ else _) (outPath pout inp) = none
  generalize (if b = true then fsSet st.outputs (outPath pout inp)
      DiskFile.truncatedFile else st.outputs) = fs₁
  split
  · exact fsGet_fsErase_self _ _
  · next hx => exact Option.not_isSome_iff_eq_none.mp hx

theorem tdms2rtdc_fold_preserves (rf : FS → Except (String × FS) FS) (pout : String)
    (inputs : List BatchInput) :
    ∀ st₀ st, foldBatch (tdms2rtdcStep false rf pout) st₀ inputs = Except.ok st →
      ∀ q : Path, q.name.data.getLast? ≠ some 'g' →
        (∀ inp ∈ inputs, q ≠ outPath pout inp) →
        fsGet st.outputs q = fsGet st₀.outputs q := by
  induction inputs with
  | nil =>
      intro st₀ st h q _ _
      cases h
      rfl
  | cons inp rest ih =>
      intro st₀ st h q hq hqs
      unfold foldBatch at h
      cases hstep : tdms2rtdcStep false rf pout st₀ inp with
      | error e => rw [hstep] at h; cases h
      | ok st₁ =>
          rw [hstep] at h
          rw [ih st₁ st h q hq (fun i hi => hqs i (List.mem_cons_of_mem _ hi))]
          exact tdms2rtdcStep_preserves rf pout st₀ inp st₁ hstep q
            (hqs inp (List.mem_cons_self _ _)) hq

theorem tdms2rtdc_cleanup_general (rf : FS → Except (String × FS) FS)
    (pout : String) (inputs : List BatchInput) :
    ∀ st₀ st, foldBatch (tdms2rtdcStep false rf pout) st₀ inputs = Except.ok st →
      (inputs.map (fun i => get_rtdc_output_name i.origin i.sample)).Nodup →
      ∀ inp ∈ inputs, pathSuffix inp.path = ".tdms" →
        ∀ b err, inp.outcome = ConvOutcome.fail b err →
          fsGet st.outputs (outPath pout inp) = none ∧ (inp.path, err) ∈ st.errors := by
  induction inputs with
  | nil => intro _ _ _ _ inp h; cases h
  | cons i rest ih =>
      intro st₀ st hfold hnd inp hmem htd b err ho
      have hndr : (rest.map (fun x => get_rtdc_output_name x.origin x.sample)).Nodup :=
        (List.nodup_cons.mp hnd).2
      have hhead : get_rtdc_output_name i.origin i.sample ∉
          rest.map (fun x => get_rtdc_output_name x.origin x.sample) :=
        (List.nodup_cons.mp hnd).1
      unfold foldBatch at hfold
      cases hstep : tdms2rtdcStep false rf pout st₀ i with
      | error e => rw [hstep] at hfold; cases hfold
      | ok st₁ =>
          rw [hstep] at hfold
          rcases List.mem_cons.mp hmem with heq | hmemr
          · subst heq
            obtain ⟨hout, herr⟩ :=
              tdms2rtdcStep_fail_out rf pout st₀ inp st₁ b err htd ho hstep
            constructor
            · rw [tdms2rtdc_fold_preserves rf pout rest st₁ st hfold
                (outPath pout inp) ?_ ?_]
              · exact hout
              · rw [show (outPath pout inp).name =
                    get_rtdc_output_name inp.origin inp.sample from rfl,
                  outName_last]
                intro hc
                cases hc
              · intro i' hi' hpe
                apply hhead
                have : get_rtdc_output_name inp.origin inp.sample =
                    get_rtdc_output_name i'.origin i'.sample :=
                  congrArg Path.name hpe
                rw [this]
                exact List.mem_map.mpr ⟨i', hi', rfl⟩
            · obtain ⟨st', hfold', he', _⟩ := tdms2rtdc_fold_ok rf pout rest st₁
              have hst : st' = st :=
                (Except.ok.injEq _ _ ▸ (hfold'.symm.trans hfold))
              rw [← hst, he', herr]
              exact List.mem_append.mpr (Or.inl (List.mem_append.mpr (Or.inr
                (List.mem_singleton.mpr rfl))))
          · exact ih st₁ st hfold hndr inp hmemr htd b err ho

/-- C9: in the conversion batch (repack checkbox off, distinct derived
output names), every `.tdms` input whose conversion raises ends the
batch with no file at its derived output path — a partial output is
deleted before the batch moves on — while its cause is recorded in
`errors`; in particular no container (and hence no history entry) for
that file exists. -/
theorem tdms2rtdc_failure_cleanup (rf : FS → Except (String × FS) FS)
    (pout : String) (inputs : List BatchInput) (st : BatchState)
    (hok : on_task_tdms2rtdc false rf pout inputs = Except.ok st)
    (hnd : (inputs.map (fun i => get_rtdc_output_name i.origin i.sample)).Nodup) :
    ∀ inp ∈ inputs, pathSuffix inp.path = ".tdms" →
      ∀ b err, inp.outcome = ConvOutcome.fail b err →
        fsGet st.outputs (outPath pout inp) = none ∧ (inp.path, err) ∈ st.errors :=
  tdms2rtdc_cleanup_general rf pout inputs emptyBatchState st hok hnd

/-- Witness for C9: a failing conversion that left a partial file,
followed by a successful one; the partial output is gone at the end. -/
theorem tdms2rtdc_failure_cleanup_witness :
    let c : ContainerState := { attrs := [], history := [], logs := [] }
    let md : Metadata := [("experiment", "sample", Value.vStr "s")]
    let i1 : BatchInput :=
      { path := { dir := "in", name := "a.tdms" },
        origin := { date := "2019-01-01", runIndex := 1, content := [1] },
        metadata := md, sample := "s", outcome := ConvOutcome.fail true "boom" }
    let i2 : BatchInput :=
      { path := { dir := "in", name := "b.tdms" },
        origin := { date := "2019-01-01", runIndex := 2, content := [2] },
        metadata := md, sample := "s", outcome := ConvOutcome.ok c }
    ∃ st, on_task_tdms2rtdc false (fun s => Except.ok s) "out" [i1, i2] = Except.ok st ∧
      fsGet st.outputs (outPath "out" i1) = none ∧ (i1.path, "boom") ∈ st.errors := by
  intro c md i1 i2
  obtain ⟨st, hfold, _, _⟩ :=
    tdms2rtdc_fold_ok (fun s => Except.ok s) "out" [i1, i2] emptyBatchState
  refine ⟨st, hfold, ?_⟩
  exact tdms2rtdc_failure_cleanup (fun s => Except.ok s) "out" [i1, i2] st hfold
    (by decide) i1 (by simp) (by decide) true "boom" rfl

end DCKit

